import Mathlib

/-
Verification of the Hugo notebook preprocessor
(src/nbhugoexporter/hugopreprocessor.py).

Strings are modelled as `List Char`.  The Python string primitives used by
the source (`str.replace`, `str.split`, `str.capitalize`, `' '.join`) are
embedded with their documented semantics (left-to-right, non-overlapping
scan).  The two regular expressions of `_extract_latex` are embedded as
hand-written scanners that reproduce `re.findall`'s behaviour on exactly
those patterns: attempts at every start position from left to right,
leftmost match wins, lazy `.*?` takes the shortest completion, and scanning
resumes at the end of each match.

Recursions that skip more than one element per step carry an explicit fuel
argument; every call site passes the length of the scanned list, which is an
upper bound for the number of steps (each step consumes at least one
character), so the fuel never runs out.  This keeps every definition
structurally recursive and hence evaluable by `decide` in proofs.
-/

/-- Abbreviation for string literals used in statements. -/
def tl (s : String) : List Char := s.toList

/-! ## Python `str.replace` -/

/-- Fueled scan for `str.replace`: at each position, if the (non-empty)
pattern starts here, emit the replacement and skip the pattern, otherwise
keep the character.  This is Python's left-to-right, non-overlapping
`str.replace` for a non-empty pattern. -/
def pyReplaceF (pat rep : List Char) : Nat → List Char → List Char
  | _, [] => []
  | 0, s => s
  | fuel+1, c :: rest =>
    if pat ≠ [] ∧ List.isPrefixOf pat (c :: rest) = true then
      rep ++ pyReplaceF pat rep fuel ((c :: rest).drop pat.length)
    else
      c :: pyReplaceF pat rep fuel rest

/-- Python `s.replace(pat, rep)`.  For the empty pattern Python inserts the
replacement before every character and at the end; that case is unreachable
in this program but kept faithful. -/
def pyReplace (s pat rep : List Char) : List Char :=
  if pat = [] then rep ++ (s.foldr (fun c acc => c :: rep ++ acc) [])
  else pyReplaceF pat rep s.length s

/-! ## Python `str.split` (non-empty separator) -/

/-- Leftmost occurrence of `sep`: returns the part before it and the part
after it, or `none` when `sep` does not occur.  (With `sep = []` the guard
keeps the scan moving; Python raises on an empty separator, which this
program never uses.) -/
def splitFirst (sep : List Char) : List Char → Option (List Char × List Char)
  | [] => none
  | c :: rest =>
    if sep ≠ [] ∧ List.isPrefixOf sep (c :: rest) = true then
      some ([], (c :: rest).drop sep.length)
    else
      match splitFirst sep rest with
      | some (pre, post) => some (c :: pre, post)
      | none => none

/-- Fueled splitting loop: cut at each leftmost separator occurrence. -/
def pySplitF (sep : List Char) : Nat → List Char → List (List Char)
  | 0, s => [s]
  | fuel+1, s =>
    match splitFirst sep s with
    | some (pre, post) => pre :: pySplitF sep fuel post
    | none => [s]

/-- Python `s.split(sep)` for a non-empty separator (the program only uses
`'\n\n'` and `'_'`). -/
def pySplit (s sep : List Char) : List (List Char) :=
  if sep = [] then [s] else pySplitF sep s.length s

/-! ## `_clean_latex` (source lines 31-53) -/

/-- The escaped copy of `latex` built by `_clean_latex`:
`latex.replace('\\\\', '\\newline').replace('_', '\\_').replace('*', '\\*')`
(raw-string spelling in the source: `\\` → `\newline`, `_` → `\_`,
`*` → `\*`, in this order). -/
def quotedLatex (latex : List Char) : List Char :=
  let q1 := pyReplace latex (tl "\\\\") (tl "\\newline")
  let q2 := pyReplace q1 (tl "_") (tl "\\_")
  pyReplace q2 (tl "*") (tl "\\*")

/-- `_clean_latex(text, latex)`: `text.replace(latex, quoted_latex)`. -/
def cleanLatex (text latex : List Char) : List Char :=
  pyReplace text latex (quotedLatex latex)

/-! ## `_extract_latex` (source lines 55-76)

Display pattern: `(?:^|[^\\])(\$\$.*?[^\\]\$\$)` with `re.DOTALL`.
Inline pattern: `[^\$\\](\$.*?[^\\]\$)` with `re.DOTALL`, run on each
`'\n\n'`-separated block. -/

/-- Lazy completion of the display group after its opening `$$`: consume as
few characters as possible until a non-backslash character followed by `$$`.
Returns the rest of the group (content, the `[^\\]` character and the
closing `$$`) together with the text after the match. -/
def dispClose : List Char → Option (List Char × List Char)
  | [] => none
  | c :: rest =>
    if c ≠ '\\' ∧ rest.take 2 = ['$', '$'] then
      some ([c, '$', '$'], rest.drop 2)
    else
      match dispClose rest with
      | some (g, r) => some (c :: g, r)
      | none => none

/-- Attempt the display group `\$\$.*?[^\\]\$\$` at the head of the text. -/
def dispGroup : List Char → Option (List Char × List Char)
  | c :: d :: rest =>
    if c = '$' ∧ d = '$' then
      match dispClose rest with
      | some (g, r) => some ('$' :: '$' :: g, r)
      | none => none
    else none
  | _ => none

/-- Scan for display matches at positions after the start of the string:
each attempt consumes one non-backslash character (`[^\\]`) and then tries
the group; after a match the scan resumes at the match end (`re.findall`
returns non-overlapping matches). -/
def displayScanF : Nat → List Char → List (List Char)
  | 0, _ => []
  | _+1, [] => []
  | fuel+1, c :: rest =>
    if c = '\\' then displayScanF fuel rest
    else
      match dispGroup rest with
      | some (g, r) => g :: displayScanF fuel r
      | none => displayScanF fuel rest

/-- `re.findall` of the display pattern: at position 0 the `^` alternative
allows the group to start at the very beginning; afterwards every group is
preceded by a consumed `[^\\]` character. -/
def displayFindAll (s : List Char) : List (List Char) :=
  match dispGroup s with
  | some (g, r) => g :: displayScanF s.length r
  | none => displayScanF s.length s

/-- Lazy completion of the inline group after its opening `$`: consume as
few characters as possible until a non-backslash character followed by `$`. -/
def inlClose : List Char → Option (List Char × List Char)
  | [] => none
  | c :: rest =>
    if c ≠ '\\' ∧ rest.take 1 = ['$'] then
      some ([c, '$'], rest.drop 1)
    else
      match inlClose rest with
      | some (g, r) => some (c :: g, r)
      | none => none

/-- Attempt the inline group `\$.*?[^\\]\$` at the head of the text. -/
def inlGroup : List Char → Option (List Char × List Char)
  | c :: rest =>
    if c = '$' then
      match inlClose rest with
      | some (g, r) => some ('$' :: g, r)
      | none => none
    else none
  | [] => none

/-- `re.findall` of the inline pattern, also recording the position at which
each group starts.  The pattern has no `^` alternative: every attempt first
consumes one character that is neither `$` nor `\` (`[^\$\\]`), so a group
always starts at a position `≥ 1`. -/
def inlineScanF : Nat → Nat → List Char → List (Nat × List Char)
  | 0, _, _ => []
  | _+1, _, [] => []
  | fuel+1, pos, c :: rest =>
    if c = '$' ∨ c = '\\' then inlineScanF fuel (pos + 1) rest
    else
      match inlGroup rest with
      | some (g, r) => (pos + 1, g) :: inlineScanF fuel (pos + 1 + g.length) r
      | none => inlineScanF fuel (pos + 1) rest

/-- Inline matches of one block, with group start positions. -/
def inlineFindAllPos (block : List Char) : List (Nat × List Char) :=
  inlineScanF block.length 0 block

/-- Inline matches of one block (what `re.findall` returns). -/
def inlineFindAll (block : List Char) : List (List Char) :=
  (inlineFindAllPos block).map Prod.snd

/-- `_extract_latex(markdown)`: the display matches over the whole text,
followed by the inline matches of each `'\n\n'`-separated block, in block
order. -/
def extractLatex (markdown : List Char) : List (List Char) :=
  displayFindAll markdown ++
    (pySplit markdown (tl "\n\n")).flatMap inlineFindAll

/-! ## Cells (`preprocess_cell`, source lines 86-107) -/

/-- The `'text/latex'` MIME key. -/
def mimeLatex : List Char := tl "text/latex"

/-- One entry of a code cell's `outputs` list: its `data` mapping (absent
`data` key modelled as `none`), a mapping from MIME type to payload. -/
structure Output where
  data : Option (List (List Char × List Char))
deriving DecidableEq

/-- First-match lookup in a key/value list (Python `dict.get`). -/
def lookupA : List (List Char × List Char) → List Char → Option (List Char)
  | [], _ => none
  | (k, v) :: rest, key => if k = key then some v else lookupA rest key

/-- Update of a key/value list (Python `dict.__setitem__`): replace the
first binding of the key, or append a new one. -/
def setA : List (List Char × List Char) → List Char → List Char →
    List (List Char × List Char)
  | [], key, v => [(key, v)]
  | (k, w) :: rest, key, v =>
    if k = key then (key, v) :: rest else (k, w) :: setA rest key v

/-- A notebook cell: `markdown` with its source, or `code` with its outputs. -/
inductive Cell where
  | markdown (source : List Char)
  | code (outputs : List Output)
deriving DecidableEq

/-- The per-output step of the code branch of `preprocess_cell`:
`latex = o.get('data', {}).get('text/latex'); if latex:` (skips an absent or
empty payload, Python truthiness) then
`o['data']['text/latex'] = self._clean_latex(latex, latex)`. -/
def processOutput (o : Output) : Output :=
  match o.data with
  | none => o
  | some d =>
    match lookupA d mimeLatex with
    | none => o
    | some l =>
      if l = [] then o else { data := some (setA d mimeLatex (cleanLatex l l)) }

/-- `preprocess_cell`: markdown cells extract the latex segments once from
the original source and then fold `_clean_latex` over them; code cells
rewrite each `text/latex` output payload in place. -/
def preprocessCell : Cell → Cell
  | Cell.markdown src => Cell.markdown ((extractLatex src).foldl cleanLatex src)
  | Cell.code outs => Cell.code (outs.map processOutput)

/-! ## Metadata defaults (`preprocess`, source lines 109-140) -/

/-- The `hugo` metadata mapping, with the three keys the code touches.
`none` is an absent key; a present string key holds a (possibly empty)
string. -/
structure Hugo where
  date : Option (List Char)
  title : Option (List Char)
  draft : Option Bool
deriving DecidableEq

/-- Python `x or y` for an optional string `x`: `y` when `x` is `None` or
empty (falsy), `x` otherwise. -/
def pyOrStr : Option (List Char) → List Char → List Char
  | none, d => d
  | some s, d => if s = [] then d else s

/-- Python `str.capitalize()` (ASCII): upper-case the first character,
lower-case the rest. -/
def pyCapitalize : List Char → List Char
  | [] => []
  | c :: rest => Char.toUpper c :: rest.map Char.toLower

/-- `' '.join(_.capitalize() for _ in name.split('_'))` (source line 130). -/
def titleFromName (name : List Char) : List Char :=
  List.intercalate (tl " ") ((pySplit name (tl "_")).map pyCapitalize)

/-- The metadata block of `preprocess` (source lines 118-133).
`tsFormatted` stands for `self._time_format_hugo(ts)` where `ts` is the
file's last-modified time: the filesystem/clock collaborator is outside the
embedding (spec section 6), so the already-formatted timestamp string is a
parameter.  `hugo0 = none` models an absent (or `None`) `hugo` mapping,
which the code replaces by `{}`. -/
def preprocessMeta (hugo0 : Option Hugo) (tsFormatted name : List Char) : Hugo :=
  let h := hugo0.getD ⟨none, none, none⟩
  { date := some (pyOrStr h.date tsFormatted),
    title := some (pyOrStr h.title (titleFromName name)),
    draft := some (h.draft.getD true) }

/-- A notebook document: its (optional) `hugo` metadata and its cells. -/
structure Doc where
  hugo : Option Hugo
  cells : List Cell
deriving DecidableEq

/-- `preprocess(nb, resources)`: fill the metadata defaults, then apply
`preprocess_cell` to every cell in order. -/
def preprocessDoc (nb : Doc) (tsFormatted name : List Char) : Doc :=
  { hugo := some (preprocessMeta nb.hugo tsFormatted name),
    cells := nb.cells.map preprocessCell }

/-! ## Predicates used by the claims -/

/-- `pat` occurs (as a contiguous substring) somewhere in the text. -/
def hasOcc (pat : List Char) : List Char → Bool
  | [] => List.isPrefixOf pat []
  | c :: rest => List.isPrefixOf pat (c :: rest) || hasOcc pat rest

/-- A character needing escaping (`_` or `*`) is acceptable only when the
preceding character is a backslash. -/
def escStep (prev c : Char) : Bool :=
  !(c == '_' || c == '*') || prev == '\\'

/-- Every `_` or `*` in the list is immediately preceded by a backslash,
given the character preceding the list. -/
def escFrom (prev : Char) : List Char → Bool
  | [] => true
  | c :: rest => escStep prev c && escFrom c rest

/-- Every `_` or `*` in the list is immediately preceded by a backslash
(the sentinel `'A'` only has to be none of `\`, `_`, `*`). -/
def wellEsc (s : List Char) : Bool := escFrom 'A' s

/-- No two consecutive backslashes anywhere in the list. -/
def noBB : List Char → Bool
  | a :: b :: rest => !(a == '\\' && b == '\\') && noBB (b :: rest)
  | _ => true

/-- Map each character to a replacement list and concatenate (used to
characterise single-character `str.replace`). -/
def catMap (f : Char → List Char) : List Char → List Char
  | [] => []
  | c :: rest => f c ++ catMap f rest

/-! ## Basic equations -/

theorem replaceF_nil (pat rep : List Char) (f : Nat) :
    pyReplaceF pat rep f [] = [] := by
  cases f <;> rfl

theorem replaceF_zero (pat rep s : List Char) :
    pyReplaceF pat rep 0 s = s := by
  cases s <;> rfl

theorem replaceF_cons (pat rep : List Char) (f : Nat) (c : Char) (rest : List Char) :
    pyReplaceF pat rep (f + 1) (c :: rest) =
      if pat ≠ [] ∧ List.isPrefixOf pat (c :: rest) = true then
        rep ++ pyReplaceF pat rep f ((c :: rest).drop pat.length)
      else
        c :: pyReplaceF pat rep f rest := rfl

theorem replaceF_fuel_eq (pat rep : List Char) :
    ∀ f1 f2 s, s.length ≤ f1 → s.length ≤ f2 →
      pyReplaceF pat rep f1 s = pyReplaceF pat rep f2 s := by
  intro f1
  induction f1 with
  | zero =>
    intro f2 s h1 _
    have hs : s = [] := List.eq_nil_of_length_eq_zero (Nat.le_zero.mp h1)
    subst hs
    rw [replaceF_nil, replaceF_nil]
  | succ f ih =>
    intro f2 s h1 h2
    cases s with
    | nil => rw [replaceF_nil, replaceF_nil]
    | cons c rest =>
      cases f2 with
      | zero => simp at h2
      | succ f2' =>
        simp only [List.length_cons] at h1 h2
        rw [replaceF_cons, replaceF_cons]
        by_cases hc : pat ≠ [] ∧ List.isPrefixOf pat (c :: rest) = true
        · rw [if_pos hc, if_pos hc]
          have hp : 1 ≤ pat.length := by
            cases pat with
            | nil => exact absurd rfl hc.1
            | cons _ _ => simp
          have hd : ((c :: rest).drop pat.length).length ≤ f := by
            simp only [List.length_drop, List.length_cons]
            omega
          have hd2 : ((c :: rest).drop pat.length).length ≤ f2' := by
            simp only [List.length_drop, List.length_cons]
            omega
          rw [ih f2' _ hd hd2]
        · rw [if_neg hc, if_neg hc]
          have hr : rest.length ≤ f := by omega
          have hr2 : rest.length ≤ f2' := by omega
          rw [ih f2' _ hr hr2]

/-! ## Prefix and occurrence helpers -/

theorem prefixOf_extend {a b : List Char} (c : List Char)
    (h : List.isPrefixOf a b = true) : List.isPrefixOf a (b ++ c) = true := by
  induction a generalizing b with
  | nil => simp [List.isPrefixOf]
  | cons x xs ih =>
    cases b with
    | nil => simp [List.isPrefixOf] at h
    | cons y ys =>
      simp only [List.isPrefixOf, Bool.and_eq_true] at h ⊢
      exact ⟨h.1, ih h.2⟩

theorem hasOcc_nil (pat : List Char) : hasOcc pat [] = List.isPrefixOf pat [] := rfl

theorem hasOcc_cons (pat : List Char) (c : Char) (rest : List Char) :
    hasOcc pat (c :: rest) =
      (List.isPrefixOf pat (c :: rest) || hasOcc pat rest) := rfl

theorem hasOcc_append_right (pat x y : List Char) (h : hasOcc pat y = true) :
    hasOcc pat (x ++ y) = true := by
  induction x with
  | nil => simpa using h
  | cons c rest ih =>
    rw [List.cons_append, hasOcc_cons, ih]
    simp

theorem hasOcc_append_left (pat g b : List Char) (h : hasOcc pat g = true) :
    hasOcc pat (g ++ b) = true := by
  induction g with
  | nil =>
    rw [hasOcc_nil] at h
    cases pat with
    | nil =>
      cases b with
      | nil => decide
      | cons y ys => simp [hasOcc_cons, List.isPrefixOf]
    | cons p ps => simp [List.isPrefixOf] at h
  | cons c rest ih =>
    rw [hasOcc_cons] at h
    rw [List.cons_append, hasOcc_cons]
    rcases Bool.or_eq_true_iff.mp h with h1 | h2
    · have h3 : List.isPrefixOf pat (c :: (rest ++ b)) = true := prefixOf_extend b h1
      rw [h3]
      simp
    · rw [ih h2]
      simp

/-- A string inside a larger string: if the pattern occurs in the middle
part, it occurs in the whole. -/
theorem hasOcc_of_within (pat a g b : List Char) (h : hasOcc pat g = true) :
    hasOcc pat (a ++ g ++ b) = true := by
  rw [List.append_assoc]
  exact hasOcc_append_right pat a _ (hasOcc_append_left pat g b h)

/-! ## `splitFirst` lemmas -/

/-- A prefix followed by the matching drop reassembles the list. -/
theorem prefixOf_append (a : List Char) :
    ∀ b, List.isPrefixOf a b = true → a ++ b.drop a.length = b := by
  induction a with
  | nil => simp [List.isPrefixOf]
  | cons x xs ih =>
    intro b h
    cases b with
    | nil => simp [List.isPrefixOf] at h
    | cons y ys =>
      simp only [List.isPrefixOf, Bool.and_eq_true, beq_iff_eq] at h
      obtain ⟨rfl, h2⟩ := h
      simp only [List.length_cons, List.drop_succ_cons, List.cons_append,
        List.cons.injEq, true_and]
      exact ih ys h2

theorem isPrefixOf_nil_false (sep : List Char) (hsep : sep ≠ []) :
    List.isPrefixOf sep ([] : List Char) = false := by
  cases sep with
  | nil => exact absurd rfl hsep
  | cons x xs => rfl

theorem splitFirst_append (sep : List Char) :
    ∀ s pre post, splitFirst sep s = some (pre, post) →
      pre ++ sep ++ post = s := by
  intro s
  induction s with
  | nil => intro pre post h; simp [splitFirst] at h
  | cons c rest ih =>
    intro pre post h
    rw [splitFirst] at h
    by_cases hc : sep ≠ [] ∧ List.isPrefixOf sep (c :: rest) = true
    · rw [if_pos hc] at h
      simp only [Option.some.injEq, Prod.mk.injEq] at h
      obtain ⟨h1, h2⟩ := h
      subst h1
      subst h2
      simpa using prefixOf_append sep (c :: rest) hc.2
    · rw [if_neg hc] at h
      cases hsp : splitFirst sep rest with
      | none => rw [hsp] at h; simp at h
      | some pr =>
        obtain ⟨pre', post'⟩ := pr
        rw [hsp] at h
        simp only [Option.some.injEq, Prod.mk.injEq] at h
        obtain ⟨h1, h2⟩ := h
        subst h1
        subst h2
        have := ih pre' post' hsp
        simp only [List.cons_append, List.cons.injEq, true_and]
        simpa using this

theorem splitFirst_pre_noOcc (sep : List Char) (hsep : sep ≠ []) :
    ∀ s pre post, splitFirst sep s = some (pre, post) →
      hasOcc sep pre = false := by
  intro s
  induction s with
  | nil => intro pre post h; simp [splitFirst] at h
  | cons c rest ih =>
    intro pre post h
    rw [splitFirst] at h
    by_cases hc : sep ≠ [] ∧ List.isPrefixOf sep (c :: rest) = true
    · rw [if_pos hc] at h
      simp only [Option.some.injEq, Prod.mk.injEq] at h
      obtain ⟨h1, _⟩ := h
      subst h1
      rw [hasOcc_nil]
      exact isPrefixOf_nil_false sep hsep
    · rw [if_neg hc] at h
      cases hsp : splitFirst sep rest with
      | none => rw [hsp] at h; simp at h
      | some pr =>
        obtain ⟨pre', post'⟩ := pr
        rw [hsp] at h
        simp only [Option.some.injEq, Prod.mk.injEq] at h
        obtain ⟨h1, h2⟩ := h
        subst h1
        subst h2
        rw [hasOcc_cons]
        have hnp : List.isPrefixOf sep (c :: rest) = false := by
          rcases Bool.eq_false_or_eq_true (List.isPrefixOf sep (c :: rest)) with h' | h'
          · exact absurd ⟨hsep, h'⟩ hc
          · exact h'
        have hdec : (c :: pre') ++ sep ++ post' = c :: rest :=
          splitFirst_append sep (c :: rest) (c :: pre') post' (by
            rw [splitFirst, if_neg hc, hsp])
        have hnp2 : List.isPrefixOf sep (c :: pre') = false := by
          rcases Bool.eq_false_or_eq_true (List.isPrefixOf sep (c :: pre')) with h' | h'
          swap
          · exact h'
          · exfalso
            have hext : List.isPrefixOf sep ((c :: pre') ++ (sep ++ post')) = true :=
              prefixOf_extend (sep ++ post') h'
            rw [← List.append_assoc, hdec] at hext
            rw [hext] at hnp
            simp at hnp
        rw [hnp2, ih pre' post' hsp]
        rfl

theorem splitFirst_none_noOcc (sep : List Char) (hsep : sep ≠ []) :
    ∀ s, splitFirst sep s = none → hasOcc sep s = false := by
  intro s
  induction s with
  | nil =>
    intro _
    rw [hasOcc_nil]
    exact isPrefixOf_nil_false sep hsep
  | cons c rest ih =>
    intro h
    rw [splitFirst] at h
    by_cases hc : sep ≠ [] ∧ List.isPrefixOf sep (c :: rest) = true
    · rw [if_pos hc] at h; simp at h
    · rw [if_neg hc] at h
      cases hsp : splitFirst sep rest with
      | none =>
        rw [hasOcc_cons]
        have hnp : List.isPrefixOf sep (c :: rest) = false := by
          rcases Bool.eq_false_or_eq_true (List.isPrefixOf sep (c :: rest)) with h' | h'
          · exact absurd ⟨hsep, h'⟩ hc
          · exact h'
        rw [hnp, ih hsp]
        rfl
      | some pr =>
        obtain ⟨pre', post'⟩ := pr
        rw [hsp] at h
        simp at h

theorem splitFirst_post_len (sep : List Char) (hsep : sep ≠ [])
    (s pre post : List Char) (h : splitFirst sep s = some (pre, post)) :
    post.length + 1 ≤ s.length := by
  have hdec := splitFirst_append sep s pre post h
  have hs : 1 ≤ sep.length := by
    cases sep with
    | nil => exact absurd rfl hsep
    | cons _ _ => simp
  rw [← hdec]
  simp only [List.length_append]
  omega

/-! ## `pySplitF` and `List.intercalate` -/

theorem pySplitF_zero (sep s : List Char) : pySplitF sep 0 s = [s] := rfl

theorem pySplitF_succ (sep : List Char) (f : Nat) (s : List Char) :
    pySplitF sep (f + 1) s =
      match splitFirst sep s with
      | some (pre, post) => pre :: pySplitF sep f post
      | none => [s] := rfl

theorem pySplitF_ne_nil (sep : List Char) (fuel : Nat) (s : List Char) :
    pySplitF sep fuel s ≠ [] := by
  cases fuel with
  | zero => simp [pySplitF_zero]
  | succ f =>
    rw [pySplitF_succ]
    cases splitFirst sep s with
    | none => simp
    | some pr => obtain ⟨pre, post⟩ := pr; simp

theorem intercalate_single (sep a : List Char) :
    List.intercalate sep [a] = a := by
  simp [List.intercalate]

theorem intercalate_cons (sep a : List Char) (l : List (List Char)) (h : l ≠ []) :
    List.intercalate sep (a :: l) = a ++ sep ++ List.intercalate sep l := by
  cases l with
  | nil => exact absurd rfl h
  | cons x xs => simp [List.intercalate, List.intersperse]

/-! ## `pyReplaceF` against `splitFirst` -/

theorem replaceF_noOcc (pat rep : List Char) :
    ∀ fuel s, s.length ≤ fuel → hasOcc pat s = false →
      pyReplaceF pat rep fuel s = s := by
  intro fuel
  induction fuel with
  | zero =>
    intro s hlen _
    have hs : s = [] := List.eq_nil_of_length_eq_zero (Nat.le_zero.mp hlen)
    subst hs
    exact replaceF_nil pat rep 0
  | succ f ih =>
    intro s hlen hocc
    cases s with
    | nil => exact replaceF_nil pat rep (f + 1)
    | cons c rest =>
      rw [hasOcc_cons] at hocc
      have h1 : List.isPrefixOf pat (c :: rest) = false ∧ hasOcc pat rest = false := by
        constructor
        · rcases Bool.eq_false_or_eq_true (List.isPrefixOf pat (c :: rest)) with h' | h'
          · rw [h'] at hocc; simp at hocc
          · exact h'
        · rcases Bool.eq_false_or_eq_true (hasOcc pat rest) with h' | h'
          · rw [h'] at hocc; simp at hocc
          · exact h'
      rw [replaceF_cons, if_neg (by
        intro hcon
        rw [hcon.2] at h1
        simp at h1)]
      simp only [List.length_cons] at hlen
      rw [ih rest (by omega) h1.2]

theorem replaceF_splitFirst (pat rep : List Char) (hpat : pat ≠ []) :
    ∀ s fuel pre post, s.length ≤ fuel → splitFirst pat s = some (pre, post) →
      pyReplaceF pat rep fuel s =
        pre ++ rep ++ pyReplaceF pat rep post.length post := by
  intro s
  induction s with
  | nil => intro fuel pre post _ h; simp [splitFirst] at h
  | cons c rest ih =>
    intro fuel pre post hlen hsp
    cases fuel with
    | zero => simp at hlen
    | succ f =>
      simp only [List.length_cons] at hlen
      rw [splitFirst] at hsp
      by_cases hc : pat ≠ [] ∧ List.isPrefixOf pat (c :: rest) = true
      · rw [if_pos hc] at hsp
        simp only [Option.some.injEq, Prod.mk.injEq] at hsp
        obtain ⟨h1, h2⟩ := hsp
        subst h1
        subst h2
        rw [replaceF_cons, if_pos hc]
        have hp : 1 ≤ pat.length := by
          cases pat with
          | nil => exact absurd rfl hpat
          | cons _ _ => simp
        have hd : ((c :: rest).drop pat.length).length ≤ f := by
          simp only [List.length_drop, List.length_cons]
          omega
        rw [replaceF_fuel_eq pat rep f ((c :: rest).drop pat.length).length _ hd
          (Nat.le_refl _)]
        simp
      · rw [if_neg hc] at hsp
        cases hsp' : splitFirst pat rest with
        | none => rw [hsp'] at hsp; simp at hsp
        | some pr =>
          obtain ⟨pre', post'⟩ := pr
          rw [hsp'] at hsp
          simp only [Option.some.injEq, Prod.mk.injEq] at hsp
          obtain ⟨h1, h2⟩ := hsp
          subst h1
          subst h2
          rw [replaceF_cons, if_neg hc]
          rw [ih f pre' post' (by omega) hsp']
          simp

theorem replaceF_eq_intercalate (pat rep : List Char) (hpat : pat ≠ []) :
    ∀ fuel s, s.length ≤ fuel →
      pyReplaceF pat rep fuel s = List.intercalate rep (pySplitF pat fuel s) := by
  intro fuel
  induction fuel with
  | zero =>
    intro s hlen
    have hs : s = [] := List.eq_nil_of_length_eq_zero (Nat.le_zero.mp hlen)
    subst hs
    rw [replaceF_nil, pySplitF_zero, intercalate_single]
  | succ f ih =>
    intro s hlen
    rw [pySplitF_succ]
    cases hsp : splitFirst pat s with
    | none =>
      rw [intercalate_single]
      exact replaceF_noOcc pat rep (f + 1) s hlen (splitFirst_none_noOcc pat hpat s hsp)
    | some pr =>
      obtain ⟨pre, post⟩ := pr
      rw [intercalate_cons rep pre _ (pySplitF_ne_nil pat f post)]
      have hpost : post.length ≤ f := by
        have := splitFirst_post_len pat hpat s pre post hsp
        omega
      rw [← ih post hpost]
      rw [replaceF_splitFirst pat rep hpat s (f + 1) pre post (by omega) hsp]
      rw [replaceF_fuel_eq pat rep post.length f post (Nat.le_refl _) hpost]

theorem splitF_join (sep : List Char) (hsep : sep ≠ []) :
    ∀ fuel s, s.length ≤ fuel →
      List.intercalate sep (pySplitF sep fuel s) = s := by
  intro fuel
  induction fuel with
  | zero =>
    intro s hlen
    have hs : s = [] := List.eq_nil_of_length_eq_zero (Nat.le_zero.mp hlen)
    subst hs
    rw [pySplitF_zero, intercalate_single]
  | succ f ih =>
    intro s hlen
    rw [pySplitF_succ]
    cases hsp : splitFirst sep s with
    | none => rw [intercalate_single]
    | some pr =>
      obtain ⟨pre, post⟩ := pr
      rw [intercalate_cons sep pre _ (pySplitF_ne_nil sep f post)]
      have hpost : post.length ≤ f := by
        have := splitFirst_post_len sep hsep s pre post hsp
        omega
      rw [ih post hpost]
      exact splitFirst_append sep s pre post hsp

theorem pySplitF_parts_noOcc (sep : List Char) (hsep : sep ≠ []) :
    ∀ fuel s part, s.length ≤ fuel → part ∈ pySplitF sep fuel s →
      hasOcc sep part = false := by
  intro fuel
  induction fuel with
  | zero =>
    intro s part hlen hmem
    have hs : s = [] := List.eq_nil_of_length_eq_zero (Nat.le_zero.mp hlen)
    subst hs
    rw [pySplitF_zero] at hmem
    simp at hmem
    subst hmem
    rw [hasOcc_nil]
    exact isPrefixOf_nil_false sep hsep
  | succ f ih =>
    intro s part hlen hmem
    rw [pySplitF_succ] at hmem
    cases hsp : splitFirst sep s with
    | none =>
      rw [hsp] at hmem
      simp at hmem
      rw [hmem]
      exact splitFirst_none_noOcc sep hsep s hsp
    | some pr =>
      obtain ⟨pre, post⟩ := pr
      rw [hsp] at hmem
      simp only [List.mem_cons] at hmem
      rcases hmem with h | h
      · subst h
        exact splitFirst_pre_noOcc sep hsep s part post hsp
      · have hpost : post.length ≤ f := by
          have := splitFirst_post_len sep hsep s pre post hsp
          omega
        exact ih post part hpost h

/-! ## Single-character `str.replace` as a character map -/

theorem catMap_nil (f : Char → List Char) : catMap f [] = [] := rfl

theorem catMap_cons (f : Char → List Char) (c : Char) (rest : List Char) :
    catMap f (c :: rest) = f c ++ catMap f rest := rfl

theorem catMap_append (f : Char → List Char) (a b : List Char) :
    catMap f (a ++ b) = catMap f a ++ catMap f b := by
  induction a with
  | nil => rfl
  | cons c rest ih => simp [catMap_cons, ih]

theorem replaceF_single (p : Char) (rep : List Char) :
    ∀ fuel s, s.length ≤ fuel →
      pyReplaceF [p] rep fuel s = catMap (fun c => if c = p then rep else [c]) s := by
  intro fuel
  induction fuel with
  | zero =>
    intro s hlen
    have hs : s = [] := List.eq_nil_of_length_eq_zero (Nat.le_zero.mp hlen)
    subst hs
    rfl
  | succ f ih =>
    intro s hlen
    cases s with
    | nil => rfl
    | cons c rest =>
      simp only [List.length_cons] at hlen
      rw [replaceF_cons, catMap_cons]
      by_cases hc : c = p
      · subst hc
        rw [if_pos ⟨by simp, by simp [List.isPrefixOf]⟩]
        rw [show ((c :: rest).drop ([c] : List Char).length) = rest from rfl]
        rw [ih rest (by omega), if_pos rfl]
      · rw [if_neg (by
          intro hcon
          have := hcon.2
          simp only [List.isPrefixOf, Bool.and_eq_true, beq_iff_eq] at this
          exact hc (this.1.symm))]
        rw [if_neg hc, ih rest (by omega)]
        rfl

theorem pyReplace_single (p : Char) (rep s : List Char) :
    pyReplace s [p] rep = catMap (fun c => if c = p then rep else [c]) s := by
  unfold pyReplace
  rw [if_neg (by simp)]
  exact replaceF_single p rep s.length s (Nat.le_refl _)

/-! ## The escaped copy is well-escaped -/

theorem escFrom_quoted :
    ∀ s prev,
      escFrom prev
        (catMap (fun c => if c = '*' then tl "\\*" else [c])
          (catMap (fun c => if c = '_' then tl "\\_" else [c]) s)) = true := by
  intro s
  induction s with
  | nil => intro prev; rfl
  | cons c rest ih =>
    intro prev
    rw [catMap_cons, catMap_append]
    by_cases h1 : c = '_'
    · subst h1
      rw [show (if ('_' : Char) = '_' then tl "\\_" else ['_']) = tl "\\_" from rfl]
      rw [show catMap (fun c => if c = '*' then tl "\\*" else [c]) (tl "\\_") =
        ['\\', '_'] from rfl]
      simp only [List.cons_append, List.nil_append, escFrom, escStep,
        Bool.and_eq_true]
      refine ⟨?_, by decide, ih '_'⟩
      rw [show (('\\' : Char) == '_') = false from rfl,
        show (('\\' : Char) == '*') = false from rfl]
      rfl
    · by_cases h2 : c = '*'
      · subst h2
        rw [if_neg (by decide)]
        rw [show catMap (fun c => if c = '*' then tl "\\*" else [c]) ['*'] =
          ['\\', '*'] from rfl]
        simp only [List.cons_append, List.nil_append, escFrom, escStep,
          Bool.and_eq_true]
        refine ⟨?_, by decide, ih '*'⟩
        rw [show (('\\' : Char) == '_') = false from rfl,
          show (('\\' : Char) == '*') = false from rfl]
        rfl
      · rw [if_neg h1]
        rw [show catMap (fun c => if c = '*' then tl "\\*" else [c]) [c] =
          (if c = '*' then tl "\\*" else [c]) ++ [] from rfl]
        rw [if_neg h2]
        simp only [List.append_nil, List.cons_append, escFrom, escStep,
          Bool.and_eq_true]
        refine ⟨?_, ih c⟩
        have e1 : (c == '_') = false := beq_eq_false_iff_ne.mpr h1
        have e2 : (c == '*') = false := beq_eq_false_iff_ne.mpr h2
        rw [e1, e2]
        rfl

theorem wellEsc_quotedLatex (latex : List Char) :
    wellEsc (quotedLatex latex) = true := by
  have h1 : tl "_" = ['_'] := rfl
  have h2 : tl "*" = ['*'] := rfl
  unfold quotedLatex
  simp only [h1, h2, pyReplace_single]
  exact escFrom_quoted _ 'A'

/-! ## Step 1 (`\\` → `\newline`) leaves no double backslash -/

theorem noBB_cons_head (a : Char) (X : List Char) :
    noBB (a :: X) = ((!(a == '\\') || !(X.headD 'A' == '\\')) && noBB X) := by
  cases X with
  | nil =>
    rw [show noBB [a] = true from rfl,
      show (([] : List Char).headD 'A' == '\\') = false from rfl]
    simp [show noBB ([] : List Char) = true from rfl]
  | cons b xs =>
    rw [show noBB (a :: b :: xs) = (!(a == '\\' && b == '\\') && noBB (b :: xs))
      from rfl]
    rw [show ((b :: xs).headD 'A') = b from rfl]
    rw [Bool.not_and]

theorem noBB_nl_append (X : List Char) (h : noBB X = true) :
    noBB (tl "\\newline" ++ X) = true := by
  rw [show tl "\\newline" ++ X =
    '\\' :: 'n' :: 'e' :: 'w' :: 'l' :: 'i' :: 'n' :: 'e' :: X from rfl]
  rw [noBB_cons_head ('\\') ('n' :: 'e' :: 'w' :: 'l' :: 'i' :: 'n' :: 'e' :: X)]
  rw [show (('n' :: 'e' :: 'w' :: 'l' :: 'i' :: 'n' :: 'e' :: X).headD 'A' == '\\')
    = false from rfl]
  rw [noBB_cons_head ('n'), noBB_cons_head ('e'), noBB_cons_head ('w'),
    noBB_cons_head ('l'), noBB_cons_head ('i'), noBB_cons_head ('n')]
  rw [noBB_cons_head ('e') X]
  have he : (('e' : Char) == '\\') = false := rfl
  simp [he, h]

theorem replaceF_bsbs_head (fuel : Nat) (s : List Char) (hs : s.headD 'A' ≠ '\\') :
    (pyReplaceF (tl "\\\\") (tl "\\newline") fuel s).headD 'A' ≠ '\\' := by
  cases s with
  | nil => rw [replaceF_nil]; exact hs
  | cons c rest =>
    rw [show (c :: rest).headD 'A' = c from rfl] at hs
    cases fuel with
    | zero => rw [replaceF_zero]; exact hs
    | succ f =>
      rw [replaceF_cons, if_neg (by
        intro hcon
        have := hcon.2
        rw [show tl "\\\\" = ['\\', '\\'] from rfl] at this
        simp only [List.isPrefixOf, Bool.and_eq_true, beq_iff_eq] at this
        exact hs this.1.symm)]
      exact hs

theorem noBB_step1 :
    ∀ fuel s, s.length ≤ fuel →
      noBB (pyReplaceF (tl "\\\\") (tl "\\newline") fuel s) = true := by
  intro fuel
  induction fuel with
  | zero =>
    intro s hlen
    have hs : s = [] := List.eq_nil_of_length_eq_zero (Nat.le_zero.mp hlen)
    subst hs
    rw [replaceF_nil]
    rfl
  | succ f ih =>
    intro s hlen
    cases s with
    | nil => rw [replaceF_nil]; rfl
    | cons c rest =>
      simp only [List.length_cons] at hlen
      by_cases hpre : List.isPrefixOf (tl "\\\\") (c :: rest) = true
      · have hstruct : c = '\\' ∧ ∃ t, rest = '\\' :: t := by
          rw [show tl "\\\\" = ['\\', '\\'] from rfl] at hpre
          cases rest with
          | nil => simp [List.isPrefixOf] at hpre
          | cons d t =>
            simp only [List.isPrefixOf, Bool.and_eq_true, beq_iff_eq] at hpre
            exact ⟨hpre.1.symm, t, by rw [hpre.2.1]⟩
        obtain ⟨hc, t, ht⟩ := hstruct
        subst hc
        subst ht
        rw [replaceF_cons, if_pos ⟨by decide, hpre⟩]
        rw [show (('\\' : Char) :: '\\' :: t).drop (tl "\\\\").length = t from rfl]
        apply noBB_nl_append
        exact ih t (by simp at hlen; omega)
      · rw [replaceF_cons, if_neg (fun hcon => hpre hcon.2)]
        rw [noBB_cons_head]
        rw [ih rest (by omega)]
        by_cases hc : c = '\\'
        · have hrh : rest.headD 'A' ≠ '\\' := by
            cases rest with
            | nil => decide
            | cons d t =>
              rw [show (d :: t).headD 'A' = d from rfl]
              intro hd
              apply hpre
              subst hc
              subst hd
              rw [show tl "\\\\" = ['\\', '\\'] from rfl]
              simp [List.isPrefixOf]
          have hh := replaceF_bsbs_head f rest hrh
          have hh2 : ((pyReplaceF (tl "\\\\") (tl "\\newline") f rest).headD 'A'
              == '\\') = false := beq_eq_false_iff_ne.mpr hh
          rw [hh2]
          simp
        · have hc2 : (c == '\\') = false := beq_eq_false_iff_ne.mpr hc
          rw [hc2]
          simp

/-! ## Inline scanner lemmas -/

theorem inlineScanF_zero (pos : Nat) (s : List Char) :
    inlineScanF 0 pos s = [] := by
  cases s <;> rfl

theorem inlineScanF_nil (fuel pos : Nat) : inlineScanF fuel pos [] = [] := by
  cases fuel <;> rfl

theorem inlineScanF_cons (f pos : Nat) (c : Char) (rest : List Char) :
    inlineScanF (f + 1) pos (c :: rest) =
      if c = '$' ∨ c = '\\' then inlineScanF f (pos + 1) rest
      else
        match inlGroup rest with
        | some (g, r) => (pos + 1, g) :: inlineScanF f (pos + 1 + g.length) r
        | none => inlineScanF f (pos + 1) rest := rfl

theorem inlClose_append :
    ∀ l g r, inlClose l = some (g, r) → g ++ r = l := by
  intro l
  induction l with
  | nil => intro g r h; simp [inlClose] at h
  | cons c rest ih =>
    intro g r h
    rw [inlClose] at h
    by_cases hc : c ≠ '\\' ∧ rest.take 1 = ['$']
    · rw [if_pos hc] at h
      simp only [Option.some.injEq, Prod.mk.injEq] at h
      obtain ⟨h1, h2⟩ := h
      subst h1
      subst h2
      have hrest : rest = '$' :: rest.drop 1 := by
        cases rest with
        | nil => simp at hc
        | cons d t =>
          have := hc.2
          simp only [List.take_succ_cons, List.take_zero] at this
          simp only [List.cons.injEq] at this
          rw [this.1]
          rfl
      rw [show [c, '$'] ++ rest.drop 1 = c :: '$' :: rest.drop 1 from rfl]
      rw [← hrest]
    · rw [if_neg hc] at h
      cases hcl : inlClose rest with
      | none => rw [hcl] at h; simp at h
      | some pr =>
        obtain ⟨g', r'⟩ := pr
        rw [hcl] at h
        simp only [Option.some.injEq, Prod.mk.injEq] at h
        obtain ⟨h1, h2⟩ := h
        subst h1
        subst h2
        rw [List.cons_append]
        rw [ih g' r' hcl]

theorem inlGroup_append :
    ∀ l g r, inlGroup l = some (g, r) → g ++ r = l := by
  intro l
  cases l with
  | nil => intro g r h; simp [inlGroup] at h
  | cons c rest =>
    intro g r h
    rw [inlGroup] at h
    by_cases hc : c = '$'
    · rw [if_pos hc] at h
      cases hcl : inlClose rest with
      | none => rw [hcl] at h; simp at h
      | some pr =>
        obtain ⟨g', r'⟩ := pr
        rw [hcl] at h
        simp only [Option.some.injEq, Prod.mk.injEq] at h
        obtain ⟨h1, h2⟩ := h
        subst h1
        subst h2
        rw [List.cons_append, inlClose_append rest g' r' hcl, hc]
    · rw [if_neg hc] at h
      simp at h

/-- Every inline match is a contiguous substring of the scanned block. -/
theorem inlineScanF_within :
    ∀ fuel pos block pr, pr ∈ inlineScanF fuel pos block →
      ∃ a b, block = a ++ pr.2 ++ b := by
  intro fuel
  induction fuel with
  | zero =>
    intro pos block pr h
    rw [inlineScanF_zero] at h
    simp at h
  | succ f ih =>
    intro pos block pr h
    cases block with
    | nil => rw [inlineScanF_nil] at h; simp at h
    | cons c rest =>
      rw [inlineScanF_cons] at h
      by_cases hc : c = '$' ∨ c = '\\'
      · rw [if_pos hc] at h
        obtain ⟨a, b, hab⟩ := ih (pos + 1) rest pr h
        exact ⟨c :: a, b, by rw [hab]; rfl⟩
      · rw [if_neg hc] at h
        cases hg : inlGroup rest with
        | none =>
          rw [hg] at h
          obtain ⟨a, b, hab⟩ := ih (pos + 1) rest pr h
          exact ⟨c :: a, b, by rw [hab]; rfl⟩
        | some pr2 =>
          obtain ⟨g, r⟩ := pr2
          rw [hg] at h
          simp only [List.mem_cons] at h
          rcases h with h | h
          · subst h
            refine ⟨[c], r, ?_⟩
            have hr := inlGroup_append rest g r hg
            rw [← hr]
            simp
          · obtain ⟨a, b, hab⟩ := ih (pos + 1 + g.length) r pr h
            refine ⟨c :: g ++ a, b, ?_⟩
            have := inlGroup_append rest g r hg
            rw [← this, hab]
            simp

/-- Every inline match starts at a position at least one past the position
where the scan started (the pattern consumes a preceding character). -/
theorem inlineScanF_pos_lower :
    ∀ fuel pos block pr, pr ∈ inlineScanF fuel pos block → pos + 1 ≤ pr.1 := by
  intro fuel
  induction fuel with
  | zero =>
    intro pos block pr h
    rw [inlineScanF_zero] at h
    simp at h
  | succ f ih =>
    intro pos block pr h
    cases block with
    | nil => rw [inlineScanF_nil] at h; simp at h
    | cons c rest =>
      rw [inlineScanF_cons] at h
      by_cases hc : c = '$' ∨ c = '\\'
      · rw [if_pos hc] at h
        have := ih (pos + 1) rest pr h
        omega
      · rw [if_neg hc] at h
        cases hg : inlGroup rest with
        | none =>
          rw [hg] at h
          have := ih (pos + 1) rest pr h
          omega
        | some pr2 =>
          obtain ⟨g, r⟩ := pr2
          rw [hg] at h
          simp only [List.mem_cons] at h
          rcases h with h | h
          · subst h
            simp
          · have := ih (pos + 1 + g.length) r pr h
            omega

/-! ## Association list lemmas -/

theorem lookupA_setA (d : List (List Char × List Char)) (k v : List Char) :
    lookupA (setA d k v) k = some v := by
  induction d with
  | nil => simp [setA, lookupA]
  | cons kv rest ih =>
    obtain ⟨k', w⟩ := kv
    by_cases hk : k' = k
    · rw [show setA ((k', w) :: rest) k v = (k, v) :: rest from by
        rw [setA, if_pos hk]]
      rw [lookupA, if_pos rfl]
    · rw [show setA ((k', w) :: rest) k v = (k', w) :: setA rest k v from by
        rw [setA, if_neg hk]]
      rw [lookupA, if_neg hk]
      exact ih

/-! ## Claim theorems -/

/-- C1 counterexample: on the input `"Display:\n$$x_1 + x_2$$\nmore"` the
code does NOT return the one-element list `["$$x_1 + x_2$$"]`.  The display
pass finds the block, but the inline pass additionally matches
`"$$x_1 + x_2$"`: its `[^\$\\]` guard only rejects a `$` *before* the
opening delimiter (here the preceding character is the newline), so the
first `$` of the opening `$$` does start an inline match whose boundaries
overlap the display block's delimiters. -/
theorem c1_counterexample :
    extractLatex (tl "Display:\n$$x_1 + x_2$$\nmore") ≠
      [tl "$$x_1 + x_2$$"] := by decide

/-- C1 (amended): `extract("Display:\n$$x_1 + x_2$$\nmore")` returns exactly
the two-element list `["$$x_1 + x_2$$", "$$x_1 + x_2$"]`: the display pass
reports the display block, and the inline pass additionally reports a
segment overlapping the display block's `$$` delimiters. -/
theorem c1_amended :
    extractLatex (tl "Display:\n$$x_1 + x_2$$\nmore") =
      [tl "$$x_1 + x_2$$", tl "$$x_1 + x_2$"] := by decide

/-- C2: the escape step rewrites every occurrence of `latex` in `text` to
`quotedLatex latex`, in which every `_` and `*` is immediately preceded by a
backslash, and in the intermediate result of step 1 (`\\` → `\newline`) no
two consecutive backslashes survive (every original `\\` was converted;
steps 2 and 3 may introduce fresh pairs such as `\_` → `\\_`, which the
source comments call harmless because the `\\` step has already run). -/
theorem c2_escape_wellformed (text latex : List Char) :
    cleanLatex text latex = pyReplace text latex (quotedLatex latex) ∧
    wellEsc (quotedLatex latex) = true ∧
    noBB (pyReplace latex (tl "\\\\") (tl "\\newline")) = true := by
  refine ⟨rfl, wellEsc_quotedLatex latex, ?_⟩
  unfold pyReplace
  rw [if_neg (by decide)]
  exact noBB_step1 latex.length latex (Nat.le_refl _)

/-- C3 counterexample: with overlapping occurrences not every occurrence is
replaced.  In `"_a_a_"` the substring `"_a_"` occurs at the two distinct
positions 0 and 2; `escape` (Python `str.replace`, leftmost non-overlapping)
rewrites only the first, producing `"\_a\_a_"`, whose final underscore —
inside the second occurrence — is left unescaped even though the escaped
version of `"_a_"` escapes every underscore and the two occurrences cover
the whole text. -/
theorem c3_counterexample :
    List.isPrefixOf (tl "_a_") (tl "_a_a_") = true ∧
    List.isPrefixOf (tl "_a_") ((tl "_a_a_").drop 2) = true ∧
    cleanLatex (tl "_a_a_") (tl "_a_") = tl "\\_a\\_a_" ∧
    wellEsc (quotedLatex (tl "_a_")) = true ∧
    wellEsc (cleanLatex (tl "_a_a_") (tl "_a_")) = false := by decide

/-- C3 (amended): `escape(text, latex)` replaces the *leftmost
non-overlapping* occurrences of `latex`, each with the same escaped version:
the result is exactly the `latex`-separated parts of `text` rejoined with
`quotedLatex latex`, and no part between two replaced occurrences still
contains an occurrence of `latex` (so when no two occurrences overlap, every
occurrence is replaced, all identically). -/
theorem c3_amended (text latex : List Char) (h : latex ≠ []) :
    cleanLatex text latex =
      List.intercalate (quotedLatex latex) (pySplit text latex) ∧
    ∀ part, part ∈ pySplit text latex → hasOcc latex part = false := by
  constructor
  · unfold cleanLatex pyReplace pySplit
    rw [if_neg h, if_neg h]
    exact replaceF_eq_intercalate latex (quotedLatex latex) h text.length text
      (Nat.le_refl _)
  · intro part hmem
    unfold pySplit at hmem
    rw [if_neg h] at hmem
    exact pySplitF_parts_noOcc latex h text.length text part (Nat.le_refl _) hmem

theorem c3_witness :
    cleanLatex (tl "x $a_b$ y $a_b$") (tl "$a_b$") =
      List.intercalate (quotedLatex (tl "$a_b$"))
        (pySplit (tl "x $a_b$ y $a_b$") (tl "$a_b$")) :=
  (c3_amended (tl "x $a_b$ y $a_b$") (tl "$a_b$") (by decide)).1

/-- C4 counterexample: an already-set but falsy value IS overwritten.  A
document whose `hugo.date` is set to the empty string comes back with the
timestamp default instead of the stored value, because the code uses
`hugo.get('date') or default` (truthiness), so "once set, never overwritten"
fails for the set value `""`. -/
theorem c4_counterexample :
    (preprocessDoc ⟨some ⟨some [], none, none⟩, []⟩
        (tl "2020-01-01T00:00:00+00:00") (tl "post")).hugo =
      some ⟨some (tl "2020-01-01T00:00:00+00:00"), some (tl "Post"), some true⟩ ∧
    some (tl "2020-01-01T00:00:00+00:00") ≠ some ([] : List Char) := by decide

/-- C4 (amended): an existing *truthy* (non-empty) `date` or `title` value
is never overwritten, and an existing `draft` value (including `false`) is
never overwritten; only a set-but-falsy (empty string) `date` or `title` is
replaced by the default. -/
theorem c4_amended (h : Hugo) (cells : List Cell) (tsF name : List Char) :
    (preprocessDoc ⟨some h, cells⟩ tsF name).hugo =
      some (preprocessMeta (some h) tsF name) ∧
    (∀ d, h.date = some d → d ≠ [] →
      (preprocessMeta (some h) tsF name).date = some d) ∧
    (∀ t, h.title = some t → t ≠ [] →
      (preprocessMeta (some h) tsF name).title = some t) ∧
    (∀ b, h.draft = some b → (preprocessMeta (some h) tsF name).draft = some b) := by
  refine ⟨rfl, ?_, ?_, ?_⟩
  · intro d hd hne
    simp [preprocessMeta, pyOrStr, hd, hne]
  · intro t ht hne
    simp [preprocessMeta, pyOrStr, ht, hne]
  · intro b hb
    simp [preprocessMeta, hb]

theorem c4_witness :
    (preprocessMeta (some ⟨some (tl "2021-05-01T10:00:00+02:00"),
        some (tl "My Title"), some false⟩) (tl "2020-01-01T00:00:00+00:00")
        (tl "post")).date = some (tl "2021-05-01T10:00:00+02:00") ∧
    (preprocessMeta (some ⟨some (tl "2021-05-01T10:00:00+02:00"),
        some (tl "My Title"), some false⟩) (tl "2020-01-01T00:00:00+00:00")
        (tl "post")).title = some (tl "My Title") ∧
    (preprocessMeta (some ⟨some (tl "2021-05-01T10:00:00+02:00"),
        some (tl "My Title"), some false⟩) (tl "2020-01-01T00:00:00+00:00")
        (tl "post")).draft = some false :=
  ⟨(c4_amended ⟨some (tl "2021-05-01T10:00:00+02:00"), some (tl "My Title"),
      some false⟩ [] (tl "2020-01-01T00:00:00+00:00") (tl "post")).2.1 _ rfl
      (by decide),
   (c4_amended ⟨some (tl "2021-05-01T10:00:00+02:00"), some (tl "My Title"),
      some false⟩ [] (tl "2020-01-01T00:00:00+00:00") (tl "post")).2.2.1 _ rfl
      (by decide),
   (c4_amended ⟨some (tl "2021-05-01T10:00:00+02:00"), some (tl "My Title"),
      some false⟩ [] (tl "2020-01-01T00:00:00+00:00") (tl "post")).2.2.2 _ rfl⟩

/-- C5: inline math never spans a blank-line paragraph break: every segment
produced by the inline pass (which splits on `'\n\n'` and scans each block
independently, concatenating in block order) contains no `'\n\n'`, and on
`"para one $a$\n\npara two $b$"` extraction returns exactly
`["$a$", "$b$"]`. -/
theorem c5_paragraph (md g : List Char)
    (h : g ∈ (pySplit md (tl "\n\n")).flatMap inlineFindAll) :
    hasOcc (tl "\n\n") g = false ∧
    extractLatex (tl "para one $a$\n\npara two $b$") = [tl "$a$", tl "$b$"] := by
  constructor
  · rcases List.mem_flatMap.mp h with ⟨block, hblock, hg⟩
    unfold inlineFindAll inlineFindAllPos at hg
    rcases List.mem_map.mp hg with ⟨pr, hpr, hgpr⟩
    obtain ⟨a, b, hab⟩ := inlineScanF_within block.length 0 block pr hpr
    have hblockOcc : hasOcc (tl "\n\n") block = false := by
      unfold pySplit at hblock
      rw [if_neg (by decide)] at hblock
      exact pySplitF_parts_noOcc (tl "\n\n") (by decide) md.length md block
        (Nat.le_refl _) hblock
    subst hgpr
    rcases Bool.eq_false_or_eq_true (hasOcc (tl "\n\n") pr.2) with ht | hf
    · exfalso
      have hwhole := hasOcc_of_within (tl "\n\n") a pr.2 b ht
      rw [← hab] at hwhole
      rw [hwhole] at hblockOcc
      simp at hblockOcc
    · exact hf
  · decide

theorem c5_witness :
    hasOcc (tl "\n\n") (tl "$a$") = false ∧
    extractLatex (tl "para one $a$\n\npara two $b$") = [tl "$a$", tl "$b$"] :=
  c5_paragraph (tl "x $a$") (tl "$a$") (by decide)

/-- C6: in a code cell every output is processed; an output whose `data`
mapping carries a `text/latex` payload gets that payload replaced (in the
same mapping) by the payload escaped against itself, and concretely the
payload `"$x_y$"` becomes `"$x\_y$"`.  (An empty payload is falsy and is
skipped by the code, but escaping an empty payload is the identity, so the
stored payload still equals its escaped self.) -/
theorem c6_code_latex (outs : List Output) (o : Output)
    (d : List (List Char × List Char)) (l : List Char)
    (hdata : o.data = some d) (hlook : lookupA d mimeLatex = some l) :
    preprocessCell (Cell.code outs) = Cell.code (outs.map processOutput) ∧
    (∃ d', (processOutput o).data = some d' ∧
      lookupA d' mimeLatex = some (cleanLatex l l)) ∧
    preprocessCell (Cell.code [⟨some [(mimeLatex, tl "$x_y$")]⟩]) =
      Cell.code [⟨some [(mimeLatex, tl "$x\\_y$")]⟩] := by
  refine ⟨rfl, ?_, by decide⟩
  have hpo : processOutput o =
      if l = [] then o
      else { data := some (setA d mimeLatex (cleanLatex l l)) } := by
    unfold processOutput
    rw [hdata]
    show (match lookupA d mimeLatex with
      | none => o
      | some l => if l = [] then o
        else { data := some (setA d mimeLatex (cleanLatex l l)) }) = _
    rw [hlook]
  by_cases hl : l = []
  · subst hl
    rw [hpo, if_pos rfl]
    refine ⟨d, hdata, ?_⟩
    rw [hlook]
    rw [show cleanLatex [] [] = [] from by decide]
  · rw [hpo, if_neg hl]
    exact ⟨setA d mimeLatex (cleanLatex l l), rfl, lookupA_setA d mimeLatex _⟩

theorem c6_witness :
    ∃ d', (processOutput ⟨some [(mimeLatex, tl "$x_y$")]⟩).data = some d' ∧
      lookupA d' mimeLatex = some (cleanLatex (tl "$x_y$") (tl "$x_y$")) :=
  (c6_code_latex [] ⟨some [(mimeLatex, tl "$x_y$")]⟩
    [(mimeLatex, tl "$x_y$")] (tl "$x_y$") rfl (by decide)).2.1

/-- C7: when `hugo.title` is absent or falsy the title defaults to the name
split on underscores, each segment capitalized, rejoined by single spaces;
in particular `"my_first_post"` yields `"My First Post"`. -/
theorem c7_title_default (h : Hugo) (tsF name : List Char)
    (htitle : h.title = none ∨ h.title = some []) :
    (preprocessMeta (some h) tsF name).title = some (titleFromName name) ∧
    titleFromName (tl "my_first_post") = tl "My First Post" := by
  constructor
  · rcases htitle with ht | ht <;> simp [preprocessMeta, pyOrStr, ht]
  · decide

theorem c7_witness :
    (preprocessMeta (some ⟨none, none, none⟩) []
        (tl "my_first_post")).title =
      some (titleFromName (tl "my_first_post")) ∧
    titleFromName (tl "my_first_post") = tl "My First Post" :=
  c7_title_default ⟨none, none, none⟩ [] (tl "my_first_post") (Or.inl rfl)

/-- C8: the draft default is a presence check, not a truthiness check:
absent `draft` becomes `true`, and an explicit `draft = false` stays
`false`. -/
theorem c8_draft_default (h : Hugo) (tsF name : List Char) :
    (h.draft = none → (preprocessMeta (some h) tsF name).draft = some true) ∧
    (h.draft = some false →
      (preprocessMeta (some h) tsF name).draft = some false) := by
  constructor <;> intro hd <;> simp [preprocessMeta, hd]

theorem c8_witness :
    (preprocessMeta (some ⟨none, none, none⟩) [] []).draft = some true ∧
    (preprocessMeta (some ⟨none, none, some false⟩) [] []).draft = some false :=
  ⟨(c8_draft_default ⟨none, none, none⟩ [] []).1 rfl,
   (c8_draft_default ⟨none, none, some false⟩ [] []).2 rfl⟩

/-- C9: `escape` only rewrites the occurrences of `latex`: the text is
exactly its `latex`-separated parts rejoined with `latex` itself (the parts
pass through unchanged, in order), and when `latex` does not occur at all,
`escape` returns the text unchanged. -/
theorem c9_frame (text latex : List Char) (h : latex ≠ []) :
    (hasOcc latex text = false → cleanLatex text latex = text) ∧
    List.intercalate latex (pySplit text latex) = text := by
  constructor
  · intro hocc
    unfold cleanLatex pyReplace
    rw [if_neg h]
    exact replaceF_noOcc latex (quotedLatex latex) text.length text
      (Nat.le_refl _) hocc
  · unfold pySplit
    rw [if_neg h]
    exact splitF_join latex h text.length text (Nat.le_refl _)

theorem c9_witness :
    cleanLatex (tl "hello") (tl "$x$") = tl "hello" ∧
    List.intercalate (tl "$x$") (pySplit (tl "hello") (tl "$x$")) = tl "hello" :=
  ⟨(c9_frame (tl "hello") (tl "$x$") (by decide)).1 (by decide),
   (c9_frame (tl "hello") (tl "$x$") (by decide)).2⟩

/-- C10: the inline pass never reports a segment starting at position 0 of
the scanned text (its pattern must consume a preceding `[^\$\\]` character
first), so `extract("$a_b$ end")` finds nothing, while display math at
position 0 is still matched through the start-of-string alternative, as in
`extract("$$a$$") = ["$$a$$"]`. -/
theorem c10_inline_offset :
    (∀ (block : List Char) (pr : Nat × List Char),
      pr ∈ inlineFindAllPos block → 1 ≤ pr.1) ∧
    extractLatex (tl "$a_b$ end") = [] ∧
    extractLatex (tl "$$a$$") = [tl "$$a$$"] := by
  refine ⟨?_, by decide, by decide⟩
  intro block pr h
  have := inlineScanF_pos_lower block.length 0 block pr h
  omega

theorem c10_witness : 1 ≤ ((1, tl "$b$") : Nat × List Char).1 :=
  c10_inline_offset.1 (tl "a$b$") (1, tl "$b$") (by decide)
